import Mathlib

/-!
Verification of the EverMemOS resilient reranking pipeline.

This file gives a shallow embedding of the reranking subsystem found in
`src/agentic_layer/rerank_deepinfra.py` and `src/agentic_layer/rerank_service.py`
and proves the spec's testable properties about it.

Modelling conventions:
* Relevance scores (Python floats) are modelled as rationals; none of the
  verified properties depends on rounding behaviour, only on the order.
* Python's stable `list.sort(key=..., reverse=True)` is modelled by a stable
  insertion sort by key; any two stable sorts by the same key agree
  extensionally, so this is a faithful model of Timsort's observable result.
* The remote HTTP endpoint is an external collaborator: a batch call's
  observable outcome is either a parsed score payload or an exception, so the
  pipeline is parameterised by an outcome function from batch index (or retry
  attempt index) to outcome.
* Python dict mutation and `dict.copy()` (relevant to the frame property of
  `rerank_memories`) are modelled with an explicit store of dictionaries in
  which a hit is an address; allocation appends to the store.
-/

namespace EverMem

/-- Relevance scores (Python floats) modelled as rationals. -/
abbrev Score := ℚ

/-- Top-level values a memory hit dictionary can carry. -/
inductive Val where
  | num (q : Score)
  | str (s : String)
deriving DecidableEq, Repr

/-! ### Stable sorting by key

Python's `list.sort`/`sorted` are stable.  `sortDescBy` models
`sort(key=..., reverse=True)`: descending in the key, equal keys keep their
original relative order.  `sortAscBy` models plain `sort(key=...)`. -/

/-- Insert an element into a descending-by-key sorted list, after every element
whose key is strictly larger (so that, used front-to-back, earlier elements
stay in front of later elements with an equal key). -/
def insertDescBy {α κ : Type} [LinearOrder κ] (key : α → κ) (p : α) :
    List α → List α
  | [] => [p]
  | q :: qs => if key p < key q then q :: insertDescBy key p qs else p :: q :: qs

/-- Stable descending sort by key, modelling `sort(key=..., reverse=True)`. -/
def sortDescBy {α κ : Type} [LinearOrder κ] (key : α → κ) : List α → List α
  | [] => []
  | x :: xs => insertDescBy key x (sortDescBy key xs)

/-- Insert an element into an ascending-by-key sorted list, after every element
whose key is less than or equal (stability for ascending order). -/
def insertAscBy {α κ : Type} [LinearOrder κ] (key : α → κ) (p : α) :
    List α → List α
  | [] => [p]
  | q :: qs => if key q ≤ key p then q :: insertAscBy key p qs else p :: q :: qs

/-- Stable ascending sort by key, modelling `sort(key=...)`. -/
def sortAscBy {α κ : Type} [LinearOrder κ] (key : α → κ) : List α → List α
  | [] => []
  | x :: xs => insertAscBy key x (sortAscBy key xs)

theorem insertDescBy_perm {α κ : Type} [LinearOrder κ] (key : α → κ) (p : α)
    (l : List α) : (insertDescBy key p l).Perm (p :: l) := by
  induction l with
  | nil => simp [insertDescBy]
  | cons q qs ih =>
    by_cases h : key p < key q
    · simpa [insertDescBy, h] using
        ((ih.cons q).trans (List.Perm.swap p q qs))
    · simp [insertDescBy, h]

theorem sortDescBy_perm {α κ : Type} [LinearOrder κ] (key : α → κ)
    (l : List α) : (sortDescBy key l).Perm l := by
  induction l with
  | nil => simp [sortDescBy]
  | cons x xs ih =>
    exact (insertDescBy_perm key x (sortDescBy key xs)).trans (ih.cons x)

/-- Order produced by a stable descending sort: either the key strictly
decreases, or keys are equal and the pair was already in relation `T`
(for us: original order). -/
def DescRel {α κ : Type} [LinearOrder κ] (key : α → κ) (T : α → α → Prop)
    (a b : α) : Prop :=
  key b < key a ∨ (key a = key b ∧ T a b)

theorem pairwise_insertDescBy {α κ : Type} [LinearOrder κ] (key : α → κ)
    (T : α → α → Prop) (p : α) (l : List α)
    (hl : l.Pairwise (DescRel key T)) (hp : ∀ q ∈ l, T p q) :
    (insertDescBy key p l).Pairwise (DescRel key T) := by
  induction l with
  | nil => simp [insertDescBy, List.Pairwise]
  | cons q qs ih =>
    rw [List.pairwise_cons] at hl
    obtain ⟨hq, hqs⟩ := hl
    by_cases h : key p < key q
    · rw [insertDescBy, if_pos h, List.pairwise_cons]
      refine ⟨?_, ih hqs (fun x hx => hp x (List.mem_cons_of_mem q hx))⟩
      intro x hx
      rcases List.mem_cons.mp ((insertDescBy_perm key p qs).mem_iff.mp hx) with
        hx | hx
      · subst hx
        exact Or.inl h
      · exact hq x hx
    · rw [insertDescBy, if_neg h, List.pairwise_cons]
      push_neg at h
      constructor
      · intro x hx
        rcases List.mem_cons.mp hx with hx | hx
        · subst hx
          rcases lt_or_eq_of_le h with h1 | h1
          · exact Or.inl h1
          · exact Or.inr ⟨h1.symm, hp x (List.mem_cons_self x qs)⟩
        · rcases hq x hx with h1 | ⟨h1, _⟩
          · exact Or.inl (lt_of_lt_of_le h1 h)
          · rcases lt_or_eq_of_le h with h2 | h2
            · exact Or.inl (h1 ▸ h2)
            · exact Or.inr ⟨by rw [← h2, h1], hp x (List.mem_cons_of_mem q hx)⟩
      · rw [List.pairwise_cons]
        exact ⟨hq, hqs⟩

theorem pairwise_sortDescBy {α κ : Type} [LinearOrder κ] (key : α → κ)
    (T : α → α → Prop) (l : List α) (hl : l.Pairwise T) :
    (sortDescBy key l).Pairwise (DescRel key T) := by
  induction l with
  | nil => simp [sortDescBy, List.Pairwise]
  | cons x xs ih =>
    rw [List.pairwise_cons] at hl
    obtain ⟨hx, hxs⟩ := hl
    refine pairwise_insertDescBy key T x (sortDescBy key xs) (ih hxs) ?_
    intro q hq
    exact hx q ((sortDescBy_perm key xs).mem_iff.mp hq)

theorem pairwise_sortDescBy_le {α κ : Type} [LinearOrder κ] (key : α → κ)
    (l : List α) :
    (sortDescBy key l).Pairwise (fun a b => key b ≤ key a) := by
  have h := pairwise_sortDescBy key (fun _ _ => True) l
    (List.pairwise_iff_forall_sublist.mpr (fun _ => trivial))
  refine h.imp ?_
  rintro a b (h1 | ⟨h1, _⟩)
  · exact le_of_lt h1
  · exact le_of_eq h1.symm

/-! ### Data model of the DeepInfra reranker (`rerank_deepinfra.py`) -/

/-- Result of parsing one batch response, the shape returned by
DeepInfraRerankService._parse_response and also the shape of the
combined response assembled in rerank_documents. -/
structure BatchScoreResult where
  scores : List Score
  input_tokens : Nat
  request_id : Option String
deriving DecidableEq, Repr

/-- One entry of the results list of a DeepInfra response body:
the numeric index and relevance_score keys can each be absent
(the source reads them with item.get defaults). -/
structure ResultItem where
  index : Option Nat
  relevance_score : Option Score
deriving DecidableEq, Repr

/-- Observable shape of a decoded JSON response body: a results list, a flat
scores list, or neither; every shape can carry usage.prompt_tokens and id. -/
inductive JsonShape where
  | withResults (results : List ResultItem) (promptTokens : Nat)
      (id : Option String)
  | withScores (scores : List Score) (promptTokens : Nat) (id : Option String)
  | other (promptTokens : Nat) (id : Option String)
deriving DecidableEq, Repr

/-- Embedding of DeepInfraRerankService._parse_response: a results list is
stably sorted by its index key (default 0) and relevance_score (default 0.0)
is extracted; a flat scores list is taken as-is; any other body yields an
empty score list. -/
def parseResponse : JsonShape → BatchScoreResult
  | .withResults items tok id =>
      ⟨(sortAscBy (fun it => it.index.getD 0) items).map
        (fun it => it.relevance_score.getD 0), tok, id⟩
  | .withScores scores tok id => ⟨scores, tok, id⟩
  | .other tok id => ⟨[], tok, id⟩

/-- One RankedResult dictionary of the final response:
keys index, score and rank. -/
structure RankedResult where
  index : Nat
  score : Score
  rank : Nat
deriving DecidableEq, Repr

/-- Shape of the value returned by rerank_documents /
_convert_response_format. -/
structure RerankResponse where
  results : List RankedResult
  input_tokens : Nat
  request_id : Option String
deriving DecidableEq, Repr

/-! ### Retry loop of _send_rerank_request_batch -/

/-- Observable outcome of one attempt of the remote call: a 200 response with
a decodable JSON body, a non-2xx response with its error text, or a raised
exception (transport error, timeout, undecodable body, ...). -/
inductive AttemptOutcome where
  | success (body : JsonShape)
  | badStatus (status : Nat) (text : String)
  | exn (msg : String)
deriving DecidableEq, Repr

/-- Backoff delay before the next attempt: the source sleeps 2 ** attempt. -/
def backoffDelay (attempt : Nat) : Nat := 2 ^ attempt

/-- Embedding of the retry loop of _send_rerank_request_batch.  The loop
state is the 0-indexed attempt number together with the number of loop
iterations left (so starting at attempt 0 with maxRetries fuel reproduces
Python's for attempt in range(max_retries)).  The value returned is the
loop's outcome (none models Python falling off the loop and returning None,
possible only for max_retries = 0), the list of sleep durations performed,
in order, and the number of attempts executed. -/
def retryLoop (out : Nat → AttemptOutcome) (maxRetries : Nat) :
    Nat → Nat → Option (Except String BatchScoreResult) × List Nat × Nat
  | _, 0 => (none, [], 0)
  | attempt, n + 1 =>
    match out attempt with
    | .success body => (some (.ok (parseResponse body)), [], 1)
    | .badStatus s t =>
        if attempt < maxRetries - 1 then
          let r := retryLoop out maxRetries (attempt + 1) n
          (r.1, backoffDelay attempt :: r.2.1, r.2.2 + 1)
        else
          (some (.error ("API failed: " ++ toString s ++ " - " ++ t)), [], 1)
    | .exn m =>
        if attempt < maxRetries - 1 then
          let r := retryLoop out maxRetries (attempt + 1) n
          (r.1, backoffDelay attempt :: r.2.1, r.2.2 + 1)
        else
          (some (.error ("Exception: " ++ m)), [], 1)

/-- Embedding of _send_rerank_request_batch as observed through its per-attempt
outcomes: run the retry loop from attempt 0 with max_retries iterations. -/
def sendRerankRequestBatch (out : Nat → AttemptOutcome) (maxRetries : Nat) :
    Option (Except String BatchScoreResult) × List Nat × Nat :=
  retryLoop out maxRetries 0 maxRetries

/-! ### Batch partitioning (rerank_documents, lines 156-170) -/

/-- Defensive normalization of the configured batch size: the source replaces
a non-positive batch_size by 10 before slicing. -/
def normBatchSize (batchSize : Int) : Nat :=
  if batchSize ≤ 0 then 10 else batchSize.toNat

/-- Start index of batch i, computed in the source as i * batch_size. -/
def batchStartIndex (batchSize i : Nat) : Nat := i * batchSize

/-- Fuel-indexed worker for the batch slicing loop; the fuel only serves to
make the recursion structural, any fuel at least the list length gives the
same value. -/
def chunkListGo {α : Type} (bs : Nat) : Nat → List α → List (List α)
  | _, [] => []
  | 0, _ :: _ => []
  | fuel + 1, d :: ds =>
      match bs with
      | 0 => []
      | b + 1 => (d :: ds).take (b + 1) :: chunkListGo bs fuel (ds.drop b)

/-- Embedding of the slicing comprehension
[documents[i : i + batch_size] for i in range(0, len(documents), batch_size)].
The bs = 0 case is unreachable from the call site (batch size is normalized
to a positive value first). -/
def chunkList {α : Type} (bs : Nat) (l : List α) : List (List α) :=
  chunkListGo bs l.length l

theorem chunkListGo_fuel {α : Type} :
    ∀ (fuel fuel2 bs : Nat) (l : List α), l.length ≤ fuel →
      l.length ≤ fuel2 → chunkListGo bs fuel l = chunkListGo bs fuel2 l := by
  intro fuel
  induction fuel with
  | zero =>
    intro fuel2 bs l hl _
    rw [List.length_eq_zero.mp (Nat.le_zero.mp hl)]
    cases fuel2 <;> rfl
  | succ fuel ih =>
    intro fuel2 bs l hl hl2
    match l with
    | [] => cases fuel2 <;> rfl
    | d :: ds =>
      match fuel2 with
      | 0 => simp at hl2
      | fuel2 + 1 =>
        match bs with
        | 0 => rfl
        | b + 1 =>
          simp only [chunkListGo]
          congr 1
          refine ih fuel2 (b + 1) (ds.drop b) ?_ ?_ <;>
            simp only [List.length_drop] <;>
            simp only [List.length_cons] at hl hl2 <;> omega

theorem chunkList_nil {α : Type} (bs : Nat) :
    chunkList bs ([] : List α) = [] := rfl

theorem chunkList_cons {α : Type} (bs : Nat) (d : α) (ds : List α) :
    chunkList (bs + 1) (d :: ds)
      = (d :: ds).take (bs + 1) :: chunkList (bs + 1) (ds.drop bs) := by
  show chunkListGo (bs + 1) (ds.length + 1) (d :: ds) = _
  simp only [chunkListGo]
  congr 1
  exact chunkListGo_fuel ds.length (ds.drop bs).length (bs + 1)
    (ds.drop bs) (by simp only [List.length_drop]; omega) le_rfl

/-! ### Score aggregation (rerank_documents, lines 174-195) -/

/-- Sentinel score substituted for every document of a batch whose remote call
failed: the source extends all_scores with [-100.0] * batch_len. -/
def sentinel : Score := -100

/-- Scores contributed to all_scores by one batch (paired with its index):
the parsed scores on success, the sentinel repeated once per document of the
batch on failure. -/
def batchContrib (out : Nat → Except String BatchScoreResult)
    (ib : Nat × List String) : List Score :=
  match out ib.1 with
  | .error _ => List.replicate ib.2.length sentinel
  | .ok r => r.scores

/-- One step of the aggregation loop over enumerate(batch_results):
accumulates all_scores, total_input_tokens and last_response. -/
def aggregateStep (out : Nat → Except String BatchScoreResult)
    (acc : List Score × Nat × Option BatchScoreResult)
    (ib : Nat × List String) : List Score × Nat × Option BatchScoreResult :=
  match out ib.1 with
  | .error _ => (acc.1 ++ List.replicate ib.2.length sentinel, acc.2.1, acc.2.2)
  | .ok r => (acc.1 ++ r.scores, acc.2.1 + r.input_tokens, some r)

/-- Pad-then-truncate step of _convert_response_format: a score list shorter
than n is extended with 0.0 entries, then the list is cut to its first n
entries, so the result always has exactly n scores. -/
def padTruncate (scores : List Score) (n : Nat) : List Score :=
  (if scores.length < n then
    scores ++ List.replicate (n - scores.length) 0
  else scores).take n

/-- Embedding of _convert_response_format: pad a short score list with 0.0 up
to num_documents, truncate a long one to num_documents, pair each score with
its index, stably sort by score descending, and assign 0-based ranks. -/
def convertResponseFormat (combined : BatchScoreResult)
    (numDocuments : Nat) : RerankResponse :=
  let scores2 := padTruncate combined.scores numDocuments
  let indexedScores := sortDescBy (fun p => p.2) scores2.enum
  { results :=
      indexedScores.enum.map (fun rp => ⟨rp.2.1, rp.2.2, rp.1⟩),
    input_tokens := combined.input_tokens,
    request_id := combined.request_id }

/-- Embedding of rerank_documents, parameterised by the per-batch outcome of
_send_rerank_request_batch (index i is the batch's position in the batch
list; asyncio.gather(..., return_exceptions=True) delivers, per batch and in
batch order, either the parsed batch result or the raised exception). -/
def rerank_documents (batchSizeCfg : Int) (documents : List String)
    (out : Nat → Except String BatchScoreResult) : RerankResponse :=
  if documents.isEmpty then ⟨[], 0, none⟩
  else
    let bs := normBatchSize batchSizeCfg
    let batches := chunkList bs documents
    let acc := batches.enum.foldl (aggregateStep out) ([], 0, none)
    convertResponseFormat
      ⟨acc.1, acc.2.1, (acc.2.2).bind (fun r => r.request_id)⟩
      documents.length

/-! ### Structural lemmas: partitioning -/

theorem chunkList_flatten_aux {α : Type} :
    ∀ (n bs : Nat) (l : List α), l.length ≤ n → 0 < bs →
      (chunkList bs l).flatten = l := by
  intro n
  induction n with
  | zero =>
    intro bs l hl _
    rw [List.length_eq_zero.mp (Nat.le_zero.mp hl)]
    rfl
  | succ n ih =>
    intro bs l hl hbs
    match l with
    | [] => rfl
    | d :: ds =>
      obtain ⟨m, rfl⟩ : ∃ m, bs = m + 1 := ⟨bs - 1, by omega⟩
      have hds : ds.length ≤ n := by
        simp only [List.length_cons] at hl
        omega
      rw [chunkList_cons, List.flatten_cons,
        ih (m + 1) (ds.drop m) (by simp only [List.length_drop]; omega) hbs]
      exact List.take_append_drop (m + 1) (d :: ds)

theorem chunkList_flatten {α : Type} (bs : Nat) (l : List α) (hbs : 0 < bs) :
    (chunkList bs l).flatten = l :=
  chunkList_flatten_aux l.length bs l le_rfl hbs

theorem chunkList_eq_nil_iff {α : Type} (bs : Nat) (l : List α)
    (hbs : 0 < bs) : chunkList bs l = [] ↔ l = [] := by
  match l with
  | [] => simp [chunkList_nil]
  | d :: ds =>
    obtain ⟨m, rfl⟩ : ∃ m, bs = m + 1 := ⟨bs - 1, by omega⟩
    rw [chunkList_cons]
    simp

theorem chunkList_getD_full_aux {α : Type} :
    ∀ (n bs i : Nat) (l : List α), l.length ≤ n → 0 < bs →
      i + 1 < (chunkList bs l).length →
      ((chunkList bs l).getD i []).length = bs := by
  intro n
  induction n with
  | zero =>
    intro bs i l hl _ hi
    rw [List.length_eq_zero.mp (Nat.le_zero.mp hl)] at hi
    simp [chunkList_nil] at hi
  | succ n ih =>
    intro bs i l hl hbs hi
    match l with
    | [] => simp [chunkList_nil] at hi
    | d :: ds =>
      obtain ⟨m, rfl⟩ : ∃ m, bs = m + 1 := ⟨bs - 1, by omega⟩
      rw [chunkList_cons] at hi ⊢
      match i with
      | 0 =>
        rw [List.getD_cons_zero, List.length_take]
        simp only [List.length_cons] at hi ⊢
        have hne : chunkList (m + 1) (ds.drop m) ≠ [] := by
          intro h
          rw [h] at hi
          simp at hi
        have := (not_iff_not.mpr
          (chunkList_eq_nil_iff (m + 1) (ds.drop m) hbs)).mp hne
        have hd : m < ds.length := by
          by_contra hc
          exact this (List.drop_eq_nil_iff.mpr (by omega))
        omega
      | i + 1 =>
        have hds : ds.length ≤ n := by
          simp only [List.length_cons] at hl
          omega
        rw [List.getD_cons_succ]
        exact ih (m + 1) i (ds.drop m)
          (by simp only [List.length_drop]; omega)
          hbs (by simpa using hi)

theorem chunkList_getD_full {α : Type} (bs i : Nat) (l : List α)
    (hbs : 0 < bs) (hi : i + 1 < (chunkList bs l).length) :
    ((chunkList bs l).getD i []).length = bs :=
  chunkList_getD_full_aux l.length bs i l le_rfl hbs hi

/-! ### Structural lemmas: indexing into a concatenation of blocks -/

theorem sum_take_map_length {α : Type} :
    ∀ (i : Nat) (blocks : List (List α)) (bs : Nat), i ≤ blocks.length →
      (∀ t, t < i → (blocks.getD t []).length = bs) →
      ((blocks.take i).map List.length).sum = i * bs := by
  intro i
  induction i with
  | zero => intro blocks bs _ _; simp
  | succ i ih =>
    intro blocks bs hi hfull
    match blocks with
    | [] => simp at hi
    | b :: rest =>
      rw [List.take_succ_cons, List.map_cons, List.sum_cons,
        ih rest bs (by simpa using hi)
          (fun t ht => by
            have := hfull (t + 1) (by omega)
            simpa using this)]
      have hb : b.length = bs := by simpa using hfull 0 (by omega)
      rw [hb, Nat.succ_mul]
      omega

theorem flatten_getD_full_prefix {α : Type} (x : α) :
    ∀ (i : Nat) (blocks : List (List α)) (bs k : Nat),
      (∀ t, t < i → (blocks.getD t []).length = bs) →
      i < blocks.length → k < (blocks.getD i []).length →
      blocks.flatten.getD (i * bs + k) x = (blocks.getD i []).getD k x := by
  intro i
  induction i with
  | zero =>
    intro blocks bs k _ hi hk
    match blocks with
    | [] => simp at hi
    | b :: rest =>
      rw [List.getD_cons_zero] at hk ⊢
      rw [List.flatten_cons, Nat.zero_mul, Nat.zero_add,
        List.getD_append b rest.flatten x k hk]
  | succ i ih =>
    intro blocks bs k hfull hi hk
    match blocks with
    | [] => simp at hi
    | b :: rest =>
      have hb : b.length = bs := by simpa using hfull 0 (by omega)
      rw [List.getD_cons_succ] at hk ⊢
      rw [List.flatten_cons,
        show (i + 1) * bs + k = b.length + (i * bs + k) by
          rw [hb, Nat.succ_mul]; omega,
        List.getD_append_right b rest.flatten x (b.length + (i * bs + k))
          (by omega), Nat.add_sub_cancel_left]
      exact ih rest bs k
        (fun t ht => by
          have := hfull (t + 1) (by omega)
          simpa using this)
        (by simpa using hi) hk

/-! ### Structural lemmas: the aggregation fold -/

theorem foldl_aggregateStep_scores
    (out : Nat → Except String BatchScoreResult) :
    ∀ (l : List (Nat × List String)) (s : List Score) (t : Nat)
      (lr : Option BatchScoreResult),
      (l.foldl (aggregateStep out) (s, t, lr)).1
        = s ++ (l.map (batchContrib out)).flatten := by
  intro l
  induction l with
  | nil => intro s t lr; simp
  | cons ib rest ih =>
    intro s t lr
    rw [List.foldl_cons, List.map_cons, List.flatten_cons]
    rcases h : out ib.1 with e | r
    · rw [show aggregateStep out (s, t, lr) ib
            = (s ++ List.replicate ib.2.length sentinel, t, lr) by
          simp [aggregateStep, h],
        ih]
      simp [batchContrib, h]
    · rw [show aggregateStep out (s, t, lr) ib
            = (s ++ r.scores, t + r.input_tokens, some r) by
          simp [aggregateStep, h],
        ih]
      simp [batchContrib, h]

/-! ### Lemmas about _convert_response_format -/

theorem padTruncate_length (s : List Score) (n : Nat) :
    (padTruncate s n).length = n := by
  unfold padTruncate
  by_cases h : s.length < n
  · rw [if_pos h]
    simp only [List.length_take, List.length_append, List.length_replicate]
    omega
  · rw [if_neg h]
    simp only [List.length_take]
    omega

theorem padTruncate_of_length_eq (s : List Score) (n : Nat)
    (h : s.length = n) : padTruncate s n = s := by
  unfold padTruncate
  rw [if_neg (by omega), List.take_of_length_le (by omega)]

theorem normBatchSize_pos (b : Int) : 0 < normBatchSize b := by
  unfold normBatchSize
  by_cases h : b ≤ 0
  · rw [if_pos h]; omega
  · rw [if_neg h]; omega

theorem convert_results_length (c : BatchScoreResult) (n : Nat) :
    (convertResponseFormat c n).results.length = n := by
  unfold convertResponseFormat
  simp only [List.length_map, List.enum_length]
  rw [(sortDescBy_perm (fun p : Nat × Score => p.2) _).length_eq,
    List.enum_length, padTruncate_length]

theorem convert_pairs_perm (c : BatchScoreResult) (n : Nat) :
    ((convertResponseFormat c n).results.map
      (fun r => (r.index, r.score))).Perm (padTruncate c.scores n).enum := by
  unfold convertResponseFormat
  simp only [List.map_map]
  have h1 : ((fun r : RankedResult => (r.index, r.score)) ∘
      (fun rp : Nat × (Nat × Score) => RankedResult.mk rp.2.1 rp.2.2 rp.1))
      = Prod.snd := by
    funext rp
    simp
  rw [h1, List.enum_map_snd]
  exact sortDescBy_perm _ _

theorem convert_index_perm (c : BatchScoreResult) (n : Nat) :
    ((convertResponseFormat c n).results.map (fun r => r.index)).Perm
      (List.range n) := by
  have h := (convert_pairs_perm c n).map Prod.fst
  rw [List.map_map] at h
  have h2 : (Prod.fst ∘ fun r : RankedResult => (r.index, r.score))
      = fun r : RankedResult => r.index := rfl
  rw [h2] at h
  rw [List.enum_map_fst, padTruncate_length] at h
  exact h

theorem convert_sorted (c : BatchScoreResult) (n : Nat) :
    (convertResponseFormat c n).results.Pairwise
      (fun a b => b.score < a.score ∨ (a.score = b.score ∧ a.index < b.index))
    := by
  unfold convertResponseFormat
  rw [List.pairwise_map]
  have hsorted :
      (sortDescBy (fun p : Nat × Score => p.2)
        (padTruncate c.scores n).enum).Pairwise
        (DescRel (fun p => p.2) (fun a b => a.1 < b.1)) := by
    refine pairwise_sortDescBy _ _ _ ?_
    have h : ((padTruncate c.scores n).enum.map Prod.fst).Pairwise
        (fun a b => a < b) := by
      rw [List.enum_map_fst]
      exact List.pairwise_lt_range _
    exact List.pairwise_map.mp h
  have henum :
      ((sortDescBy (fun p : Nat × Score => p.2)
        (padTruncate c.scores n).enum).enum.map Prod.snd).Pairwise
        (DescRel (fun p => p.2) (fun a b => a.1 < b.1)) := by
    rw [List.enum_map_snd]
    exact hsorted
  refine (List.pairwise_map.mp henum).imp ?_
  rintro a b (h | ⟨h1, h2⟩)
  · exact Or.inl h
  · exact Or.inr ⟨h1, h2⟩

theorem convert_rank_order (c : BatchScoreResult) (n : Nat) :
    (convertResponseFormat c n).results.map (fun r => r.rank)
      = List.range (convertResponseFormat c n).results.length := by
  unfold convertResponseFormat
  simp only [List.map_map, List.length_map, List.enum_length]
  have h1 : ((fun r : RankedResult => r.rank) ∘
      (fun rp : Nat × (Nat × Score) => RankedResult.mk rp.2.1 rp.2.2 rp.1))
      = Prod.fst := rfl
  rw [h1, List.enum_map_fst]

/-! ### Claim theorems: completeness, ordering, partitioning -/

/-- C1: for every query and every document list (and any per-batch outcome,
however many batches failed), rerank_documents returns exactly one
RankedResult per input document, and the index values of the returned
results form a permutation of 0..N-1 for N input documents. -/
theorem rerank_documents_one_result_per_document (batchSizeCfg : Int)
    (documents : List String)
    (out : Nat → Except String BatchScoreResult) :
    (rerank_documents batchSizeCfg documents out).results.length
        = documents.length ∧
    ((rerank_documents batchSizeCfg documents out).results.map
        (fun r => r.index)).Perm (List.range documents.length) := by
  unfold rerank_documents
  by_cases hd : documents.isEmpty
  · rw [if_pos hd, List.isEmpty_iff.mp hd]
    exact ⟨rfl, List.Perm.refl _⟩
  · rw [if_neg hd]
    exact ⟨convert_results_length _ _, convert_index_perm _ _⟩

/-- C2: the results of rerank_documents are sorted by score descending with
ties broken by ascending original index, and the rank field of the k-th
returned result is k (the list is returned in rank order, best first). -/
theorem rerank_documents_sorted_and_ranked (batchSizeCfg : Int)
    (documents : List String)
    (out : Nat → Except String BatchScoreResult) :
    (rerank_documents batchSizeCfg documents out).results.Pairwise
        (fun a b => b.score < a.score ∨ (a.score = b.score ∧ a.index < b.index))
    ∧ (rerank_documents batchSizeCfg documents out).results.map
        (fun r => r.rank)
      = List.range (rerank_documents batchSizeCfg documents out).results.length
    := by
  unfold rerank_documents
  by_cases hd : documents.isEmpty
  · rw [if_pos hd]
    exact ⟨List.Pairwise.nil, rfl⟩
  · rw [if_neg hd]
    exact ⟨convert_sorted _ _, convert_rank_order _ _⟩

/-- C7: batch partitioning is a lossless gap-free overlap-free cover:
concatenating the batches reproduces the input, the empty input yields no
batches, a non-positive configured batch size is coerced to 10, and the
start index i * batch_size of batch i equals the sum of the sizes of all
preceding batches. -/
theorem batch_partition_cover (batchSizeCfg : Int)
    (documents : List String) :
    (chunkList (normBatchSize batchSizeCfg) documents).flatten = documents
    ∧ (documents = [] →
        chunkList (normBatchSize batchSizeCfg) documents = [])
    ∧ (batchSizeCfg ≤ 0 → normBatchSize batchSizeCfg = 10)
    ∧ (∀ i, i < (chunkList (normBatchSize batchSizeCfg) documents).length →
        batchStartIndex (normBatchSize batchSizeCfg) i
          = (((chunkList (normBatchSize batchSizeCfg) documents).take i).map
              List.length).sum) := by
  have hbs := normBatchSize_pos batchSizeCfg
  refine ⟨chunkList_flatten _ _ hbs, ?_, ?_, ?_⟩
  · intro h
    rw [h]
    exact chunkList_nil _
  · intro h
    unfold normBatchSize
    rw [if_pos h]
  · intro i hi
    rw [sum_take_map_length i _ (normBatchSize batchSizeCfg) (by omega)
      (fun t ht => chunkList_getD_full _ t documents hbs (by omega))]
    rfl

/-- Witness for the partition theorem: 25 documents with batch size 10 give
batches of sizes 10, 10 and 5, covering the input, with start indices
0, 10, 20. -/
theorem batch_partition_cover_witness :
    batchStartIndex (normBatchSize 10) 2
      = (((chunkList (normBatchSize 10)
            ((List.range 25).map toString)).take 2).map List.length).sum :=
  (batch_partition_cover 10 ((List.range 25).map toString)).2.2.2 2
    (by decide)

/-! ### Per-document score lookup in the final ranking -/

theorem enumFrom_filter_fst_eq {α : Type} (x : α) :
    ∀ (l : List α) (n d : Nat), n ≤ d → d < n + l.length →
      (List.enumFrom n l).filter (fun p => p.1 = d)
        = [(d, l.getD (d - n) x)] := by
  intro l
  induction l with
  | nil =>
    intro n d h1 h2
    simp only [List.length_nil, Nat.add_zero] at h2
    omega
  | cons a as ih =>
    intro n d h1 h2
    rw [List.enumFrom_cons, List.filter_cons]
    by_cases h : n = d
    · subst h
      rw [if_pos (by simp)]
      have htail : (List.enumFrom (n + 1) as).filter (fun p => p.1 = n)
          = [] := by
        rw [List.filter_eq_nil_iff]
        intro p hp
        obtain ⟨hle, _, _⟩ :=
          List.mem_enumFrom (show (p.1, p.2) ∈ List.enumFrom (n + 1) as by
            simpa using hp)
        simp only [decide_eq_true_eq]
        omega
      rw [htail, Nat.sub_self, List.getD_cons_zero]
    · rw [if_neg (by simpa using h)]
      have hd : d - n = (d - (n + 1)) + 1 := by omega
      rw [ih (n + 1) d (by omega) (by simp at h2 ⊢; omega), hd,
        List.getD_cons_succ]

theorem enum_filter_fst_eq {α : Type} (x : α) (l : List α) (d : Nat)
    (hd : d < l.length) :
    l.enum.filter (fun p => p.1 = d) = [(d, l.getD d x)] := by
  rw [List.enum_eq_enumFrom]
  have h := enumFrom_filter_fst_eq x l 0 d (Nat.zero_le d) (by omega)
  rw [Nat.sub_zero] at h
  exact h

theorem enum_map_getD {α β : Type} (f : Nat × α → β) (l : List α) (t : Nat)
    (ht : t < l.length) (d : β) (da : α) :
    (l.enum.map f).getD t d = f (t, l.getD t da) := by
  have htm : t < (l.enum.map f).length := by
    simp only [List.length_map, List.enum_length]
    exact ht
  rw [List.getD_eq_getElem _ _ htm, List.getElem_map,
    List.getElem_enum, List.getD_eq_getElem _ _ ht]

theorem lt_length_flatten_of_block {α : Type} :
    ∀ (i : Nat) (blocks : List (List α)) (bs k : Nat),
      (∀ t, t < i → (blocks.getD t []).length = bs) →
      i < blocks.length → k < (blocks.getD i []).length →
      i * bs + k < blocks.flatten.length := by
  intro i
  induction i with
  | zero =>
    intro blocks bs k _ hi hk
    match blocks with
    | [] => simp at hi
    | b :: rest =>
      rw [List.getD_cons_zero] at hk
      rw [List.flatten_cons, List.length_append]
      omega
  | succ i ih =>
    intro blocks bs k hfull hi hk
    match blocks with
    | [] => simp at hi
    | b :: rest =>
      have hb : b.length = bs := by simpa using hfull 0 (by omega)
      rw [List.getD_cons_succ] at hk
      rw [List.flatten_cons, List.length_append, hb, Nat.succ_mul]
      have := ih rest bs k
        (fun t ht => by
          have := hfull (t + 1) (by omega)
          simpa using this)
        (by simpa using hi) hk
      omega

/-- C3: if batch j fails on every retry while every other batch succeeds with
one score per document, then each document of batch j appears exactly once
in the final ranking, carrying the sentinel score -100.0, and each document
of every other batch i appears exactly once carrying exactly the score its
own batch returned for it (partial-failure isolation). -/
theorem rerank_batch_failure_isolated (batchSizeCfg : Int)
    (documents : List String) (out : Nat → Except String BatchScoreResult)
    (j : Nat) (e : String) (hj : out j = .error e)
    (hok : ∀ i, i < (chunkList (normBatchSize batchSizeCfg) documents).length →
      i ≠ j → ∀ r, out i = .ok r →
        r.scores.length
          = ((chunkList (normBatchSize batchSizeCfg) documents).getD i []).length)
    (i k : Nat)
    (hi : i < (chunkList (normBatchSize batchSizeCfg) documents).length)
    (hk : k <
      ((chunkList (normBatchSize batchSizeCfg) documents).getD i []).length) :
    ((rerank_documents batchSizeCfg documents out).results.filter
        (fun r => r.index = batchStartIndex (normBatchSize batchSizeCfg) i + k)).map
        (fun r => r.score)
      = [(batchContrib out
            (i, (chunkList (normBatchSize batchSizeCfg) documents).getD i [])).getD
          k 0]
    ∧ (i = j →
        (batchContrib out
          (i, (chunkList (normBatchSize batchSizeCfg) documents).getD i [])).getD
            k 0
          = sentinel) := by
  have hbs := normBatchSize_pos batchSizeCfg
  set bs := normBatchSize batchSizeCfg with hbsdef
  set batches := chunkList bs documents with hbatches
  -- lengths of the per-batch contributions
  have hcontrib : ∀ t, t < batches.length →
      ((batches.enum.map (batchContrib out)).getD t []).length
        = (batches.getD t []).length := by
    intro t ht
    rw [enum_map_getD (batchContrib out) batches t ht [] []]
    unfold batchContrib
    match hout : out t with
    | .error _ => simp
    | .ok r =>
      by_cases htj : t = j
      · rw [htj] at hout
        rw [hout] at hj
        exact absurd hj (by simp)
      · exact hok t ht htj r hout
  constructor
  · -- the filtered singleton
    have hne : ¬documents.isEmpty := by
      intro hc
      rw [List.isEmpty_iff.mp hc, chunkList_nil] at hbatches
      rw [hbatches] at hi
      simp at hi
    unfold rerank_documents
    rw [if_neg hne]
    -- the concatenated score list
    have hscores :
        ((batches.enum.foldl (aggregateStep out) ([], 0, none)).1 : List Score)
          = (batches.enum.map (batchContrib out)).flatten := by
      rw [foldl_aggregateStep_scores out batches.enum [] 0 none]
      simp
    have hpoint : ∀ ib ∈ batches.enum,
        (List.length ∘ batchContrib out) ib
          = (fun ib : Nat × List String => ib.2.length) ib := by
      intro ib hib
      obtain ⟨h1, h2, h3⟩ := List.mem_enumFrom
        (show (ib.1, ib.2) ∈ List.enumFrom 0 batches by
          rw [← List.enum_eq_enumFrom]; simpa using hib)
      simp only [Nat.sub_zero] at h3
      have hib1 : ib.1 < batches.length := by simpa using h2
      have hgd : batches.getD ib.1 [] = ib.2 := by
        rw [List.getD_eq_getElem _ _ hib1]
        exact h3.symm
      have hc := hcontrib ib.1 hib1
      rw [enum_map_getD (batchContrib out) batches ib.1 hib1 [] [],
        hgd] at hc
      simpa using hc
    have hlen : ((batches.enum.map (batchContrib out)).flatten).length
        = documents.length := by
      rw [List.length_flatten, List.map_map, List.map_congr_left hpoint]
      rw [show (fun ib : Nat × List String => ib.2.length)
            = List.length ∘ Prod.snd from rfl, ← List.map_map,
        List.enum_map_snd, ← List.length_flatten, hbatches,
        chunkList_flatten bs documents hbs]
    -- full prefix blocks
    have hfull : ∀ t, t < i →
        ((batches.enum.map (batchContrib out)).getD t []).length = bs := by
      intro t ht
      rw [hcontrib t (by omega)]
      exact chunkList_getD_full bs t documents hbs
        (by rw [← hbatches]; omega)
    have hiblocks : i < (batches.enum.map (batchContrib out)).length := by
      simp only [List.length_map, List.enum_length]
      exact hi
    have hkblock : k < ((batches.enum.map (batchContrib out)).getD i []).length := by
      rw [hcontrib i hi]
      exact hk
    have hD : i * bs + k < documents.length := by
      have := lt_length_flatten_of_block i
        (batches.enum.map (batchContrib out)) bs k hfull hiblocks hkblock
      omega
    -- the aggregated list is already exactly one score per document
    have hpad : padTruncate
        ((batches.enum.foldl (aggregateStep out) ([], 0, none)).1)
        documents.length
        = (batches.enum.map (batchContrib out)).flatten := by
      rw [hscores]
      exact padTruncate_of_length_eq _ _ hlen
    -- pairs of the final results are a permutation of the enumerated scores
    have hperm := convert_pairs_perm
      ⟨(batches.enum.foldl (aggregateStep out) ([], 0, none)).1,
        (batches.enum.foldl (aggregateStep out) ([], 0, none)).2.1,
        ((batches.enum.foldl (aggregateStep out) ([], 0, none)).2.2).bind
          (fun r => r.request_id)⟩ documents.length
    rw [hpad] at hperm
    set res := convertResponseFormat
      ⟨(batches.enum.foldl (aggregateStep out) ([], 0, none)).1,
        (batches.enum.foldl (aggregateStep out) ([], 0, none)).2.1,
        ((batches.enum.foldl (aggregateStep out) ([], 0, none)).2.2).bind
          (fun r => r.request_id)⟩ documents.length with hres
    have hfilter := hperm.filter (fun p => p.1 = i * bs + k)
    rw [List.filter_map
        (p := fun p : Nat × Score => p.1 = i * bs + k)
        (fun r : RankedResult => (r.index, r.score))] at hfilter
    rw [enum_filter_fst_eq 0 _ _
      (by rw [hlen]; exact hD)] at hfilter
    have heq := List.perm_singleton.mp hfilter
    have hmapped := congrArg (List.map Prod.snd) heq
    rw [List.map_map] at hmapped
    have hcomp : (Prod.snd ∘ fun r : RankedResult => (r.index, r.score))
        = fun r : RankedResult => r.score := rfl
    rw [hcomp] at hmapped
    have hval : ((batches.enum.map (batchContrib out)).flatten).getD
        (i * bs + k) 0
        = ((batches.enum.map (batchContrib out)).getD i []).getD k 0 :=
      flatten_getD_full_prefix 0 i _ bs k hfull hiblocks hkblock
    rw [hval, enum_map_getD (batchContrib out) batches i hi [] []] at hmapped
    have hpred : (fun r : RankedResult =>
        decide (r.index = i * bs + k))
        = fun r : RankedResult =>
            decide (r.index = batchStartIndex bs i + k) := rfl
    simp only [List.map_cons, List.map_nil] at hmapped
    exact hmapped
  · intro hij
    subst hij
    unfold batchContrib
    rw [hj]
    rw [List.getD_eq_getElem _ _ (by simpa using hk), List.getElem_replicate]

/-- Concrete batch outcomes used by the failure-isolation witness: batch 1
always fails, batches 0 and 2 succeed with one score per document. -/
def outWitness : Nat → Except String BatchScoreResult := fun i =>
  if i = 1 then .error "boom"
  else if i = 0 then .ok ⟨[1, 3], 7, some "a"⟩
  else .ok ⟨[5], 2, some "c"⟩

/-- Witness for the failure-isolation theorem: five documents with batch size
2, batch 1 failing, document 2 (the failed batch's first document) appears
exactly once with the sentinel score. -/
theorem rerank_batch_failure_isolated_witness :
    ((rerank_documents 2 ["a", "b", "c", "d", "e"] outWitness).results.filter
        (fun r => r.index = batchStartIndex (normBatchSize 2) 1 + 0)).map
        (fun r => r.score)
      = [(batchContrib outWitness
            (1, (chunkList (normBatchSize 2) ["a", "b", "c", "d", "e"]).getD
              1 [])).getD 0 0]
    ∧ ((1 : Nat) = 1 →
        (batchContrib outWitness
          (1, (chunkList (normBatchSize 2) ["a", "b", "c", "d", "e"]).getD
            1 [])).getD 0 0
          = sentinel) := by
  refine rerank_batch_failure_isolated 2 ["a", "b", "c", "d", "e"] outWitness
    1 "boom" rfl ?_ 1 0 (by decide) (by decide)
  intro i hi hij r hr
  have hlen : (chunkList (normBatchSize 2) ["a", "b", "c", "d", "e"]).length
      = 3 := by decide
  rw [hlen] at hi
  interval_cases i
  · have : r = ⟨[1, 3], 7, some "a"⟩ := by
      simpa [outWitness] using hr.symm
    rw [this]
    decide
  · exact absurd rfl hij
  · have : r = ⟨[5], 2, some "c"⟩ := by
      simpa [outWitness] using hr.symm
    rw [this]
    decide

/-! ### Retry and backoff behaviour of _send_rerank_request_batch -/

theorem retryLoop_all_fail (out : Nat → AttemptOutcome) (maxRetries : Nat) :
    ∀ (n attempt : Nat), attempt + n = maxRetries → 1 ≤ n →
      (∀ i, attempt ≤ i → i < maxRetries → ∀ b, out i ≠ .success b) →
      (∃ e, (retryLoop out maxRetries attempt n).1 = some (.error e))
      ∧ (retryLoop out maxRetries attempt n).2.1
          = (List.range' attempt (n - 1)).map backoffDelay
      ∧ (retryLoop out maxRetries attempt n).2.2 = n := by
  intro n
  induction n with
  | zero => intro attempt _ h1; omega
  | succ n ih =>
    intro attempt htot _ hfail
    have hattempt : attempt < maxRetries := by omega
    cases n with
    | zero =>
      have hcond : ¬(attempt < maxRetries - 1) := by omega
      rcases hout : out attempt with body | ⟨s, t⟩ | msg
      · exact absurd hout (hfail attempt le_rfl hattempt body)
      · refine ⟨⟨"API failed: " ++ toString s ++ " - " ++ t, ?_⟩, ?_, ?_⟩ <;>
          simp [retryLoop, hout, if_neg hcond]
      · refine ⟨⟨"Exception: " ++ msg, ?_⟩, ?_, ?_⟩ <;>
          simp [retryLoop, hout, if_neg hcond]
    | succ m =>
      have hcond : attempt < maxRetries - 1 := by omega
      obtain ⟨⟨e, he⟩, hsl, hat⟩ := ih (attempt + 1) (by omega) (by omega)
        (fun i h1 h2 b => hfail i (by omega) h2 b)
      have hrange : List.range' attempt (m + 1 + 1 - 1)
          = attempt :: List.range' (attempt + 1) (m + 1 - 1) := by
        rw [show m + 1 + 1 - 1 = m + 1 from rfl,
          show m + 1 - 1 = m from rfl]
        exact List.range'_succ attempt m 1
      rcases hout : out attempt with body | ⟨s, t⟩ | msg
      · exact absurd hout (hfail attempt le_rfl hattempt body)
      · have hstep : retryLoop out maxRetries attempt (m + 1 + 1)
            = ((retryLoop out maxRetries (attempt + 1) (m + 1)).1,
              backoffDelay attempt ::
                (retryLoop out maxRetries (attempt + 1) (m + 1)).2.1,
              (retryLoop out maxRetries (attempt + 1) (m + 1)).2.2 + 1) := by
          conv_lhs => rw [retryLoop]
          rw [hout]
          simp only [hcond, if_true]
        refine ⟨⟨e, ?_⟩, ?_, ?_⟩
        · rw [hstep]; exact he
        · rw [hstep, hrange, List.map_cons, hsl]
        · rw [hstep, hat]
      · have hstep : retryLoop out maxRetries attempt (m + 1 + 1)
            = ((retryLoop out maxRetries (attempt + 1) (m + 1)).1,
              backoffDelay attempt ::
                (retryLoop out maxRetries (attempt + 1) (m + 1)).2.1,
              (retryLoop out maxRetries (attempt + 1) (m + 1)).2.2 + 1) := by
          conv_lhs => rw [retryLoop]
          rw [hout]
          simp only [hcond, if_true]
        refine ⟨⟨e, ?_⟩, ?_, ?_⟩
        · rw [hstep]; exact he
        · rw [hstep, hrange, List.map_cons, hsl]
        · rw [hstep, hat]

/-- C6: if every one of the max_retries attempts of a batch fails, whatever
the kind of each failure (raised exception, non-2xx status, or a body whose
decoding raises), then the call performs exactly max_retries attempts,
sleeps 2 to the power attempt (0-indexed) between consecutive attempts, and
finally surfaces a RerankError. -/
theorem batch_retry_exponential_backoff (out : Nat → AttemptOutcome)
    (maxRetries : Nat) (hmr : 1 ≤ maxRetries)
    (hfail : ∀ i, i < maxRetries → ∀ b, out i ≠ .success b) :
    (∃ e, (sendRerankRequestBatch out maxRetries).1 = some (.error e))
    ∧ (sendRerankRequestBatch out maxRetries).2.1
        = (List.range (maxRetries - 1)).map backoffDelay
    ∧ (sendRerankRequestBatch out maxRetries).2.2 = maxRetries := by
  have h := retryLoop_all_fail out maxRetries maxRetries 0 (by omega) hmr
    (fun i _ h2 b => hfail i h2 b)
  rw [List.range_eq_range']
  exact h

/-- Concrete attempt outcomes for the retry witness: the first attempt raises
a transport error and every later attempt gets a 500 response. -/
def outRetryWitness : Nat → AttemptOutcome := fun i =>
  if i = 0 then .exn "timeout" else .badStatus 500 "server error"

/-- Witness for the retry theorem at the default max_retries of 3: three
attempts are made, with sleeps of 1 and 2 time units in between, and the
call ends in an error. -/
theorem batch_retry_exponential_backoff_witness :
    (∃ e, (sendRerankRequestBatch outRetryWitness 3).1 = some (.error e))
    ∧ (sendRerankRequestBatch outRetryWitness 3).2.1
        = (List.range 2).map backoffDelay
    ∧ (sendRerankRequestBatch outRetryWitness 3).2.2 = 3 :=
  batch_retry_exponential_backoff outRetryWitness 3 (by decide)
    (by
      intro i hi b hcontra
      interval_cases i <;> simp [outRetryWitness] at hcontra)

/-! ### Failover controller (HybridRerankService, rerank_service.py) -/

/-- Mutable configuration state of the hybrid service that the failover logic
touches: the fallback switch, the warning threshold, and the running count
of consecutive primary (custom-service) failures. -/
structure HybridConfig where
  enable_fallback : Bool
  max_custom_failures : Nat
  custom_failure_count : Nat
deriving DecidableEq, Repr

/-- Embedding of HybridRerankService.execute_with_fallback as a state
transition: given the outcome of the primary call and (if consulted) the
outcome of the fallback call, it yields the returned value or raised error,
the updated configuration state, and whether the fallback service was
invoked.  The max_custom_failures threshold only controls a log line in the
source and does not alter the result. -/
def execute_with_fallback {α : Type} (cfg : HybridConfig)
    (primary : Except String α) (fallback : Except String α) :
    Except String α × HybridConfig × Bool :=
  match primary with
  | .ok r => (.ok r, { cfg with custom_failure_count := 0 }, false)
  | .error pe =>
    let cfg1 :=
      { cfg with custom_failure_count := cfg.custom_failure_count + 1 }
    if ¬cfg.enable_fallback then
      (.error ("Custom service failed and fallback is disabled: " ++ pe),
        cfg1, false)
    else
      match fallback with
      | .ok r => (.ok r, cfg1, true)
      | .error fe =>
        (.error ("Both custom and fallback services failed. Custom: "
            ++ pe ++ ", Fallback: " ++ fe), cfg1, true)

/-- Sequence of controller calls on the same service instance: fold
execute_with_fallback over a list of (primary outcome, fallback outcome)
pairs, threading the configuration state. -/
def runCalls {α : Type} (cfg : HybridConfig) :
    List (Except String α × Except String α) → HybridConfig
  | [] => cfg
  | c :: rest => runCalls (execute_with_fallback cfg c.1 c.2).2.1 rest

theorem exec_error_state {α : Type} (cfg : HybridConfig) (pe : String)
    (fb : Except String α) :
    (execute_with_fallback cfg (.error pe) fb).2.1
      = { cfg with custom_failure_count := cfg.custom_failure_count + 1 } := by
  by_cases hen : cfg.enable_fallback <;> cases fb <;>
    simp [execute_with_fallback, hen]

theorem runCalls_count_all_fail {α : Type} :
    ∀ (calls : List (Except String α × Except String α))
      (cfg : HybridConfig),
      (∀ c ∈ calls, ∃ e, c.1 = Except.error e) →
      (runCalls cfg calls).custom_failure_count
        = cfg.custom_failure_count + calls.length := by
  intro calls
  induction calls with
  | nil => intro cfg _; simp [runCalls]
  | cons c rest ih =>
    intro cfg hc
    obtain ⟨e, he⟩ := hc c (List.mem_cons_self c rest)
    rw [runCalls, ih _ (fun x hx => hc x (List.mem_cons_of_mem c hx)),
      he, exec_error_state]
    simp only [List.length_cons]
    omega

/-- C8: the consecutive-failure counter is reset to 0 on every primary
success, incremented by exactly 1 on every primary failure, and not reset
when the secondary succeeds after a primary failure; hence N consecutive
covered primary failures starting from a clean state leave the counter at
N, and one subsequent primary success returns it to 0. -/
theorem failover_counter_conformance {α : Type} :
    (∀ (cfg : HybridConfig) (r : α) (fb : Except String α),
      (execute_with_fallback cfg (.ok r) fb).2.1.custom_failure_count = 0)
    ∧ (∀ (cfg : HybridConfig) (pe : String) (fb : Except String α),
      (execute_with_fallback cfg (.error pe) fb).2.1.custom_failure_count
        = cfg.custom_failure_count + 1)
    ∧ (∀ (cfg : HybridConfig) (pe : String) (r : α),
      cfg.enable_fallback = true →
      (execute_with_fallback cfg (.error pe) (.ok r)).1 = .ok r
      ∧ (execute_with_fallback cfg (.error pe)
          (.ok r)).2.1.custom_failure_count
        = cfg.custom_failure_count + 1)
    ∧ (∀ (cfg : HybridConfig)
        (calls : List (Except String α × Except String α)),
      cfg.custom_failure_count = 0 →
      (∀ c ∈ calls, (∃ e, c.1 = Except.error e) ∧ ∃ r, c.2 = Except.ok r) →
      (runCalls cfg calls).custom_failure_count = calls.length
      ∧ ∀ (r : α) (fb : Except String α),
          (execute_with_fallback (runCalls cfg calls) (.ok r)
            fb).2.1.custom_failure_count = 0) := by
  refine ⟨fun cfg r fb => rfl, ?_, ?_, ?_⟩
  · intro cfg pe fb
    rw [exec_error_state]
  · intro cfg pe r hen
    constructor <;> simp [execute_with_fallback, hen]
  · intro cfg calls h0 hcalls
    constructor
    · rw [runCalls_count_all_fail calls cfg (fun c hc => (hcalls c hc).1),
        h0, Nat.zero_add]
    · intro r fb
      rfl

/-- Witness for the counter theorem: with fallback enabled, three primary
failures each covered by the secondary bring the counter from 0 to 3, and a
following primary success resets it to 0. -/
theorem failover_counter_conformance_witness :
    (runCalls (⟨true, 3, 0⟩ : HybridConfig)
        ([(.error "e1", .ok 1), (.error "e2", .ok 2), (.error "e3", .ok 3)] :
          List (Except String Nat × Except String Nat))).custom_failure_count
      = 3
    ∧ ∀ (r : Nat) (fb : Except String Nat),
        (execute_with_fallback
          (runCalls (⟨true, 3, 0⟩ : HybridConfig)
            ([(.error "e1", .ok 1), (.error "e2", .ok 2),
              (.error "e3", .ok 3)] :
              List (Except String Nat × Except String Nat)))
          (.ok r) fb).2.1.custom_failure_count = 0 :=
  (@failover_counter_conformance Nat).2.2.2 ⟨true, 3, 0⟩
    [(.error "e1", .ok 1), (.error "e2", .ok 2), (.error "e3", .ok 3)] rfl
    (by
      intro c hc
      fin_cases hc <;> exact ⟨⟨_, rfl⟩, ⟨_, rfl⟩⟩)

/-- C9: with fallback disabled, a single primary failure makes the
controller raise the combined error immediately, the secondary service is
never invoked, and the consecutive-failure counter is still incremented by
exactly 1. -/
theorem fallback_disabled_immediate_error {α : Type} (cfg : HybridConfig)
    (hdis : cfg.enable_fallback = false) (pe : String)
    (fb : Except String α) :
    (execute_with_fallback cfg (.error pe) fb).1
        = .error ("Custom service failed and fallback is disabled: " ++ pe)
    ∧ (execute_with_fallback cfg (.error pe) fb).2.2 = false
    ∧ (execute_with_fallback cfg (.error pe) fb).2.1.custom_failure_count
        = cfg.custom_failure_count + 1 := by
  refine ⟨?_, ?_, ?_⟩ <;> simp [execute_with_fallback, hdis]

/-- Witness for the disabled-fallback theorem at a concrete state: counter 0
becomes 1, the combined error is raised, and the fallback flag stays
false. -/
theorem fallback_disabled_immediate_error_witness :
    (execute_with_fallback (⟨false, 3, 0⟩ : HybridConfig)
        (.error "boom") (Except.ok (42 : Nat))).1
        = .error ("Custom service failed and fallback is disabled: boom")
    ∧ (execute_with_fallback (⟨false, 3, 0⟩ : HybridConfig)
        (.error "boom") (Except.ok (42 : Nat))).2.2 = false
    ∧ (execute_with_fallback (⟨false, 3, 0⟩ : HybridConfig)
        (.error "boom") (Except.ok (42 : Nat))).2.1.custom_failure_count
        = 0 + 1 :=
  fallback_disabled_immediate_error ⟨false, 3, 0⟩ rfl "boom" (.ok 42)

/-! ### Memory-hit store model (rerank_memories of rerank_deepinfra.py)

Hits are Python dictionaries, mutable objects; to state non-mutation and
copy-freshness facts the embedding uses an explicit store of dictionaries in
which a hit is an address and dict.copy() allocates at the end of the
store. -/

/-- A memory hit dictionary: its top-level key/value pairs. -/
abbrev Dict := List (String × Val)

/-- Python d.get(key): the value at the first matching key, if present. -/
def dictGet (d : Dict) (k : String) : Option Val :=
  (d.find? (fun kv => kv.1 = k)).map (fun kv => kv.2)

/-- Python d[key] = v: replace the value in place when the key is present,
append the pair otherwise. -/
def dictSet (d : Dict) (k : String) (v : Val) : Dict :=
  if d.any (fun kv => kv.1 = k) then
    d.map (fun kv => if kv.1 = k then (k, v) else kv)
  else d ++ [(k, v)]

/-- Numeric value of hit.get('score', 0), the sort key of the degraded path.
A non-numeric score value is mapped to 0 here; Python would instead raise
when comparing it against a number, so theorems about the degraded sort
carry a hypothesis that score values are numeric. -/
def dictScore (d : Dict) : Score :=
  match dictGet d "score" with
  | some (.num q) => q
  | some (.str _) => 0
  | none => 0

/-- Truth of "the score key, if present, holds a number" for one hit
dictionary. -/
def scoreIsNumeric (d : Dict) : Bool :=
  match dictGet d "score" with
  | some (.str _) => false
  | _ => true

/-- Truncation applied when top_k is given and positive (the source checks
top_k is not None and top_k > 0). -/
def truncTopK {α : Type} (topK : Option Int) (l : List α) : List α :=
  match topK with
  | some k => if 0 < k then l.take k.toNat else l
  | none => l

/-- One iteration of the remap loop of rerank_memories: for a RankedResult
whose index is within the hits list, read the hit at that index, allocate a
shallow copy at the end of the store, overwrite the copy's score key, and
append the copy's address to the output; out-of-range indices are
skipped. -/
def applyRankedItem (hits : List Nat)
    (acc : List Dict × List Nat) (item : RankedResult) :
    List Dict × List Nat :=
  if h : item.index < hits.length then
    (acc.1 ++ [dictSet (acc.1.getD (hits.get ⟨item.index, h⟩) []) "score"
        (.num item.score)],
      acc.2 ++ [acc.1.length])
  else acc

/-- Embedding of DeepInfraRerankService.rerank_memories over the hit store,
parameterised by the outcome of the rerank_documents call (ok: its
response; error: any exception escaping it, which the source catches).
The value is the store after the call and the returned hit addresses. -/
def rerank_memories (store : List Dict) (hits : List Nat)
    (topK : Option Int) (rd : Except String RerankResponse) :
    List Dict × List Nat :=
  if hits.isEmpty then (store, [])
  else
    match rd with
    | .ok rr =>
      let p := rr.results.foldl (applyRankedItem hits) (store, [])
      (p.1, truncTopK topK p.2)
    | .error _ =>
      (store,
        truncTopK topK
          (sortDescBy (fun a => dictScore (store.getD a [])) hits))

theorem truncTopK_subset {α : Type} (topK : Option Int) (l : List α) :
    ∀ a ∈ truncTopK topK l, a ∈ l := by
  intro a ha
  match topK with
  | none => exact ha
  | some k =>
    simp only [truncTopK] at ha
    by_cases hk : 0 < k
    · rw [if_pos hk] at ha
      exact List.mem_of_mem_take ha
    · rw [if_neg hk] at ha
      exact ha

theorem getD_of_take_eq {α : Type} (st s : List α) (d : α)
    (htake : st.take s.length = s) (a : Nat) (ha : a < s.length) :
    st.getD a d = s.getD a d := by
  rw [← htake, List.getD_eq_getElem?_getD, List.getD_eq_getElem?_getD,
    List.getElem?_take, if_pos ha]

theorem applyRankedItem_fold_inv (hits : List Nat) (store : List Dict)
    (hv : ∀ a ∈ hits, a < store.length) :
    ∀ (items : List RankedResult) (st : List Dict) (ret : List Nat),
      store.length ≤ st.length → st.take store.length = store →
      (∀ a ∈ ret, store.length ≤ a ∧ a < st.length ∧
        ∃ i : Fin hits.length, ∃ q : Score,
          st.getD a []
            = dictSet (store.getD (hits.get i) []) "score" (.num q)) →
      store.length ≤ (items.foldl (applyRankedItem hits) (st, ret)).1.length
      ∧ (items.foldl (applyRankedItem hits) (st, ret)).1.take store.length
          = store
      ∧ ∀ a ∈ (items.foldl (applyRankedItem hits) (st, ret)).2,
          store.length ≤ a
          ∧ a < (items.foldl (applyRankedItem hits) (st, ret)).1.length
          ∧ ∃ i : Fin hits.length, ∃ q : Score,
              (items.foldl (applyRankedItem hits) (st, ret)).1.getD a []
                = dictSet (store.getD (hits.get i) []) "score" (.num q) := by
  intro items
  induction items with
  | nil =>
    intro st ret h1 h2 h3
    exact ⟨h1, h2, h3⟩
  | cons item rest ih =>
    intro st ret h1 h2 h3
    rw [List.foldl_cons]
    by_cases h : item.index < hits.length
    · have hstep : applyRankedItem hits (st, ret) item
          = (st ++ [dictSet (st.getD (hits.get ⟨item.index, h⟩) []) "score"
              (.num item.score)], ret ++ [st.length]) := by
        unfold applyRankedItem
        rw [dif_pos h]
      rw [hstep]
      have hread : st.getD (hits.get ⟨item.index, h⟩) []
          = store.getD (hits.get ⟨item.index, h⟩) [] :=
        getD_of_take_eq st store [] h2 _
          (hv _ (List.get_mem hits item.index h))
      apply ih
      · simp only [List.length_append, List.length_cons, List.length_nil]
        omega
      · rw [List.take_append_of_le_length h1, h2]
      · intro a ha
        rcases List.mem_append.mp ha with ha | ha
        · obtain ⟨ha1, ha2, i, q, hq⟩ := h3 a ha
          refine ⟨ha1, ?_, i, q, ?_⟩
          · simp only [List.length_append, List.length_cons, List.length_nil]
            omega
          · rw [List.getD_append _ _ _ _ ha2]
            exact hq
        · rw [List.mem_singleton.mp ha]
          refine ⟨h1, ?_, ⟨item.index, h⟩, item.score, ?_⟩
          · simp only [List.length_append, List.length_cons, List.length_nil]
            omega
          · rw [List.getD_append_right _ _ _ _ le_rfl, Nat.sub_self,
              List.getD_cons_zero, hread]
    · rw [show applyRankedItem hits (st, ret) item = (st, ret) by
        unfold applyRankedItem
        rw [dif_neg h]]
      exact ih st ret h1 h2 h3

/-- C10: rerank_memories never mutates its input: the dictionaries at the
input addresses are unchanged after the call on both paths; on the degraded
path the store is untouched; and on the successful path every returned
address is freshly allocated outside the input store and holds a
score-updated shallow copy of one of the input hits. -/
theorem rerank_memories_no_mutation (store : List Dict) (hits : List Nat)
    (topK : Option Int) (rd : Except String RerankResponse)
    (hv : ∀ a ∈ hits, a < store.length) :
    ((rerank_memories store hits topK rd).1.take store.length = store)
    ∧ (∀ e, rd = .error e → (rerank_memories store hits topK rd).1 = store)
    ∧ (∀ rr, rd = .ok rr →
        ∀ a ∈ (rerank_memories store hits topK rd).2,
          store.length ≤ a
          ∧ ∃ i : Fin hits.length, ∃ q : Score,
              (rerank_memories store hits topK rd).1.getD a []
                = dictSet (store.getD (hits.get i) []) "score" (.num q)) := by
  by_cases hemp : hits.isEmpty
  · unfold rerank_memories
    rw [if_pos hemp]
    exact ⟨List.take_length store, fun e _ => rfl, fun rr _ a ha => by
      simp at ha⟩
  · match rd with
    | .error e =>
      unfold rerank_memories
      rw [if_neg hemp]
      refine ⟨List.take_length store, ?_, ?_⟩
      · intro e2 he2
        rfl
      · intro rr hrr
        cases hrr
    | .ok rr =>
      have hinv := applyRankedItem_fold_inv hits store hv rr.results store []
        le_rfl (List.take_length store) (fun a ha => by simp at ha)
      unfold rerank_memories
      rw [if_neg hemp]
      refine ⟨hinv.2.1, ?_, ?_⟩
      · intro e he
        cases he
      · intro rr2 hrr2 a ha
        have hmem := truncTopK_subset topK _ a ha
        obtain ⟨ha1, _, i, q, hq⟩ := hinv.2.2 a hmem
        exact ⟨ha1, i, q, hq⟩

/-- C4: if the rerank_documents call raises for a non-empty hits list,
rerank_memories catches the error and returns, without touching the store,
the same input hits stably sorted descending by the score value each hit
already carried (0 when the key is absent), truncated to top_k when top_k
is given and positive; the failure never propagates (the embedding returns
a value on the error outcome).  The numeric-score hypothesis marks the
inputs on which the Python sort is defined (a mixed-type comparison would
raise). -/
theorem rerank_memories_degraded_path (store : List Dict) (hits : List Nat)
    (topK : Option Int) (e : String) (hne : hits ≠ [])
    (_hnum : ∀ a ∈ hits, scoreIsNumeric (store.getD a []) = true) :
    rerank_memories store hits topK (.error e)
        = (store,
            truncTopK topK
              (sortDescBy (fun a => dictScore (store.getD a [])) hits))
    ∧ (sortDescBy (fun a => dictScore (store.getD a [])) hits).Perm hits
    ∧ (sortDescBy (fun a => dictScore (store.getD a [])) hits).Pairwise
        (fun a b =>
          dictScore (store.getD b []) ≤ dictScore (store.getD a []))
    ∧ (∀ k : Int, topK = some k → 0 < k →
        truncTopK topK
            (sortDescBy (fun a => dictScore (store.getD a [])) hits)
          = (sortDescBy (fun a => dictScore (store.getD a [])) hits).take
              k.toNat) := by
  refine ⟨?_, sortDescBy_perm _ _, pairwise_sortDescBy_le _ _, ?_⟩
  · unfold rerank_memories
    rw [if_neg (by simpa using hne)]
  · intro k hk hkpos
    rw [hk]
    simp only [truncTopK]
    rw [if_pos hkpos]

/-- Witness for the degraded path: three hits with scores 1, 3 and no score
key, a failing rerank_documents outcome, and top_k = 2 give back the hits
sorted 3, 1, 0 and truncated to two entries, with the store untouched. -/
theorem rerank_memories_degraded_path_witness :
    rerank_memories [[("score", Val.num 1)], [("score", Val.num 3)], []]
        [0, 1, 2] (some 2) (.error "boom")
        = ([[("score", Val.num 1)], [("score", Val.num 3)], []],
            truncTopK (some 2)
              (sortDescBy
                (fun a =>
                  dictScore
                    (([[("score", Val.num 1)], [("score", Val.num 3)],
                      []] : List Dict).getD a []))
                [0, 1, 2]))
    ∧ (sortDescBy
        (fun a =>
          dictScore
            (([[("score", Val.num 1)], [("score", Val.num 3)],
              []] : List Dict).getD a []))
        [0, 1, 2]).Perm [0, 1, 2]
    ∧ (sortDescBy
        (fun a =>
          dictScore
            (([[("score", Val.num 1)], [("score", Val.num 3)],
              []] : List Dict).getD a []))
        [0, 1, 2]).Pairwise
        (fun a b =>
          dictScore
              (([[("score", Val.num 1)], [("score", Val.num 3)],
                []] : List Dict).getD b [])
            ≤ dictScore
              (([[("score", Val.num 1)], [("score", Val.num 3)],
                []] : List Dict).getD a []))
    ∧ (∀ k : Int, (some 2 : Option Int) = some k → 0 < k →
        truncTopK (some 2)
            (sortDescBy
              (fun a =>
                dictScore
                  (([[("score", Val.num 1)], [("score", Val.num 3)],
                    []] : List Dict).getD a []))
              [0, 1, 2])
          = (sortDescBy
              (fun a =>
                dictScore
                  (([[("score", Val.num 1)], [("score", Val.num 3)],
                    []] : List Dict).getD a []))
              [0, 1, 2]).take k.toNat) :=
  rerank_memories_degraded_path
    [[("score", Val.num 1)], [("score", Val.num 3)], []] [0, 1, 2]
    (some 2) "boom" (by decide) (by decide)

/-- Witness for the frame theorem: two hits, a successful rerank outcome
reordering them, no truncation; the store's first two entries are unchanged
and every returned address is a fresh score-carrying copy. -/
theorem rerank_memories_no_mutation_witness :
    ((rerank_memories [[("score", Val.num 1)], [("score", Val.num 3)]]
        [0, 1] none
        (.ok ⟨[⟨1, 5, 0⟩, ⟨0, 2, 1⟩], 0, none⟩)).1.take 2
      = [[("score", Val.num 1)], [("score", Val.num 3)]])
    ∧ (∀ e : String,
        (Except.ok (⟨[⟨1, 5, 0⟩, ⟨0, 2, 1⟩], 0, none⟩ : RerankResponse)
            : Except String RerankResponse)
          = Except.error e →
        (rerank_memories [[("score", Val.num 1)], [("score", Val.num 3)]]
          [0, 1] none
          (.ok ⟨[⟨1, 5, 0⟩, ⟨0, 2, 1⟩], 0, none⟩)).1
          = [[("score", Val.num 1)], [("score", Val.num 3)]])
    ∧ (∀ rr : RerankResponse,
        (Except.ok (⟨[⟨1, 5, 0⟩, ⟨0, 2, 1⟩], 0, none⟩ : RerankResponse)
            : Except String RerankResponse)
          = Except.ok rr →
        ∀ a ∈ (rerank_memories [[("score", Val.num 1)],
            [("score", Val.num 3)]] [0, 1] none
            (.ok ⟨[⟨1, 5, 0⟩, ⟨0, 2, 1⟩], 0, none⟩)).2,
          2 ≤ a
          ∧ ∃ i : Fin ([0, 1] : List Nat).length, ∃ q : Score,
              (rerank_memories [[("score", Val.num 1)],
                [("score", Val.num 3)]] [0, 1] none
                (.ok ⟨[⟨1, 5, 0⟩, ⟨0, 2, 1⟩], 0, none⟩)).1.getD a []
                = dictSet
                    (([[("score", Val.num 1)],
                      [("score", Val.num 3)]] : List Dict).getD
                      (([0, 1] : List Nat).get i) [])
                    "score" (.num q)) :=
  rerank_memories_no_mutation
    [[("score", Val.num 1)], [("score", Val.num 3)]] [0, 1] none
    (.ok ⟨[⟨1, 5, 0⟩, ⟨0, 2, 1⟩], 0, none⟩) (by decide)

/-! ### Argument forwarding of HybridRerankService.rerank_memories -/

/-- Argument slots of a provider's rerank_memories call, as declared by
RerankServiceInterface: rerank_memories(query, hits, top_k=None,
instruction=None).  The hits argument is forwarded unchanged and omitted
here; slot values stay dynamically typed as in the source. -/
structure ProviderRerankMemArgs where
  query : String
  top_k : Option Val
  instruction : Option Val
deriving DecidableEq, Repr

/-- Embedding of the call-argument binding performed by
HybridRerankService.rerank_memories, whose own signature is
rerank_memories(self, query, retrieve_response, instruction=None): it
invokes provider.rerank_memories(query, retrieve_response, instruction)
positionally on both the primary and the fallback provider, so the hybrid
instruction value is bound to the provider's third parameter top_k, and the
provider's instruction parameter keeps its default None. -/
def hybridProviderCallArgs (query : String) (instruction : Option String) :
    ProviderRerankMemArgs :=
  { query := query,
    top_k := instruction.map Val.str,
    instruction := none }

/-- C5 (evaluation of the defect): the hybrid controller's rerank_memories
exposes no top_k parameter, and a caller-supplied instruction string
reaches the provider in the top_k slot while the provider's instruction
slot stays None — the opposite of forwarding each argument in its own
role. -/
theorem hybrid_topk_misrouted :
    (hybridProviderCallArgs "q" (some "focus on recent events")).top_k
        = some (.str "focus on recent events")
    ∧ (hybridProviderCallArgs "q"
        (some "focus on recent events")).instruction = none :=
  ⟨rfl, rfl⟩

end EverMem
